import Mathlib

/-!
Verification of the PlutoTVDownloader manifest-parsing and segment-decryption
pipeline (src/helper.ts, src/DownloadPlaylist.ts).

The TypeScript code is shallowly embedded: JS string primitives are modelled
as executable functions over `List Char` (wrapped in `String`), thrown
exceptions become `Option.none` / a failed `RunResult`, and the JS object
reference stored in `MediaSegment.key` (`keys[keys.length - 1]`) is modelled
as the index of the referenced record inside the `keys` array, so that
"two segments share the same KeyRecord instance" is expressible as equality
of indices.
-/

namespace PlutoTV

/-- Whitespace recognised by our model of JS `String.prototype.trim`
(the manifests handled by the code are ASCII; JS trims further Unicode
whitespace that never occurs here). -/
def isJsWS (c : Char) : Bool := c = ' ' || c = '\t' || c = '\n' || c = '\r'

/-- Model of JS `s.trim()` on character lists. -/
def jsTrimL (l : List Char) : List Char :=
  ((l.dropWhile isJsWS).reverse.dropWhile isJsWS).reverse

/-- Model of JS `s.trim()`. -/
def jsTrim (s : String) : String := ⟨jsTrimL s.data⟩

/-- Model of JS `s.startsWith(pre)`. -/
def jsStartsWith (s pre : String) : Bool := pre.data.isPrefixOf s.data

/-- Does `pat` occur as a contiguous substring of `s`?  Model of JS
`s.includes(pat)`. -/
def hasSubstr (s pat : List Char) : Bool :=
  pat.isPrefixOf s ||
    match s with
    | [] => false
    | _ :: t => hasSubstr t pat

/-- Model of JS `s.includes(pat)` on strings. -/
def jsIncludes (s pat : String) : Bool := hasSubstr s.data pat.data

/-- Model of JS `s.split(sep)` for a one-character separator `sep` (every
separator the source splits on — `","`, `"="`, `"/"`, `"-"`, `"\n"` — is a
single character).  Structural recursion so that concrete instances reduce
in the kernel. -/
def charSplit (sep : Char) : List Char → List (List Char)
  | [] => [[]]
  | c :: cs =>
    if c = sep then [] :: charSplit sep cs
    else
      match charSplit sep cs with
      | [] => [[c]]
      | h :: t => (c :: h) :: t

/-- Model of JS `s.split(sep)` for a one-character separator, on strings. -/
def jsSplit (s : String) (sep : Char) : List String :=
  (charSplit sep s.data).map fun l => ⟨l⟩

/-- Model of JS `s.split(/\r?\n/)`: a separator is either `"\r\n"` or
`"\n"`; a lone `"\r"` is not a separator. -/
def splitLinesL : List Char → List (List Char)
  | [] => [[]]
  | '\r' :: '\n' :: cs => [] :: splitLinesL cs
  | '\n' :: cs => [] :: splitLinesL cs
  | c :: cs =>
    match splitLinesL cs with
    | [] => [[c]]
    | h :: t => (c :: h) :: t

/-- Model of JS `s.split(/\r?\n/)` on strings. -/
def jsSplitLines (s : String) : List String :=
  (splitLinesL s.data).map fun l => ⟨l⟩

/-- Model of JS `s.replace(pat, "")` for a plain-string pattern, which
replaces only the first occurrence (here the replacement is always the
empty string, as in `url.split("-").pop()?.replace(".ts", "")`). -/
def eraseFirstL (pat : List Char) : List Char → List Char
  | [] => if pat.isPrefixOf ([] : List Char) then [] else []
  | c :: cs =>
    if pat.isPrefixOf (c :: cs) then (c :: cs).drop pat.length
    else c :: eraseFirstL pat cs

/-- Model of JS `s.slice(1, -1)` (drop the first and the last character). -/
def sliceOneNegOne (s : String) : String := ⟨(s.data.drop 1).dropLast⟩

/-- Model of JS `arr.indexOf(x)` on a list of strings.  When `x` is absent
this returns `arr.length` (JS would return `-1`); in every use below the
element is drawn from the list itself, so the absent case is unreachable. -/
def jsIndexOf : List String → String → Nat
  | [], _ => 0
  | x :: xs, a => if x = a then 0 else jsIndexOf xs a + 1

/-- The two operator-inserted sentinel identifiers excluded by
`parsePlaylist` (src/helper.ts lines 221 and 226). -/
def isExcluded (s : String) : Bool :=
  jsIncludes s "099_Pluto_TV_OandO" || jsIncludes s "829_Pluto_TV_OandO"

/-- The key record built by `parseKey` (src/helper.ts lines 239-259).  The
`ivasDec` field (a decimal rendering of the IV that is never read anywhere)
is not modelled; computing it (`parseInt`) cannot throw, so it does not
affect control flow. -/
structure KeyRec where
  name : String
  uri : String
  iv : String
deriving DecidableEq, Repr

/-- A media segment as built by `parsePlaylist` / `parseM3U8`.  The JS
object reference `key: keys[keys.length - 1]` is modelled as the index of
the referenced record in the returned `keys` array (`none` when the array
was empty, i.e. JS `undefined`). -/
structure MediaSegment where
  url : String
  index : String
  key : Option Nat
deriving DecidableEq, Repr

/-- The result `{ segments, keys }` of `parsePlaylist` / `parseM3U8`. -/
structure ParseResult where
  segments : List MediaSegment
  keys : List KeyRec
deriving DecidableEq, Repr

/-- JS `keys[keys.length - 1]` as a reference into `keys`: `undefined`
(`none`) when the array is empty. -/
def jsLastIdx (keys : List KeyRec) : Option Nat :=
  if keys.length = 0 then none else some (keys.length - 1)

/-- `url.split("-").pop()?.replace(".ts", "") || ""` (src/helper.ts line
229): the part of the whole URL after its last `-` (the whole URL when it
has none), with the first occurrence of `".ts"` removed; `|| ""` only
matters when the result is already empty. -/
def segIndexOf (url : String) : String :=
  let last := (jsSplit url '-').getLastD ""
  let r : String := ⟨eraseFirstL ".ts".data last.data⟩
  if r = "" then "" else r

/-- One step of the `for (const part of parts)` loop of `parseKey`
(src/helper.ts lines 243-255).  `none` models a thrown `TypeError`:
either `value` is `undefined` (the part has no `=`) in a `URI`/`IV` case,
or `uriParts[5]` is `undefined` (the URI has fewer than six `/`-separated
parts). -/
def parseKeyStep (k : KeyRec) (part : String) : Option KeyRec :=
  let kv := jsSplit part '='
  let keyName := kv.headD ""
  if jsTrim keyName = "URI" then
    match kv.get? 1 with
    | none => none
    | some v =>
      let uri := sliceOneNegOne (jsTrim v)
      match (jsSplit uri '/').get? 5 with
      | none => none
      | some u5 => some { k with uri := uri, name := ⟨u5.data.drop 25⟩ }
  else if jsTrim keyName = "IV" then
    match kv.get? 1 with
    | none => none
    | some v => some { k with iv := ⟨(jsTrim v).data.drop 2⟩ }
  else
    some k

/-- `parseKey` (src/helper.ts lines 239-259); the identical inline key
parsing of `parseM3U8` (src/DownloadPlaylist.ts lines 66-90) is the same
function. -/
def parseKey (line : String) : Option KeyRec :=
  (jsSplit line ',').foldlM parseKeyStep ⟨"", "", ""⟩

/-- The line scan of `parsePlaylist` (src/helper.ts lines 218-235).  The
loop visits every line; at an `#EXTINF:` line the segment URL is
`lines[index + 1]`, which for this sequential scan is the head of the
remaining lines (`none` models the `TypeError` from `.trim()` on
`undefined` when `#EXTINF:` is the last line). -/
def ppGo : List String → List KeyRec → List MediaSegment → Option ParseResult
  | [], keys, segs => some ⟨segs, keys⟩
  | line :: rest, keys, segs =>
    if jsStartsWith line "#EXT-X-KEY" then
      match parseKey line with
      | none => none
      | some k =>
        if isExcluded k.uri then ppGo rest keys segs
        else ppGo rest (keys ++ [k]) segs
    else if jsStartsWith line "#EXTINF:" then
      match rest.head? with
      | none => none
      | some nxt =>
        let url := jsTrim nxt
        if isExcluded url then ppGo rest keys segs
        else ppGo rest keys (segs ++ [⟨url, segIndexOf url, jsLastIdx keys⟩])
    else
      ppGo rest keys segs

/-- `parsePlaylist` (src/helper.ts lines 213-237) on an already split line
list. -/
def parsePlaylistLines (lines : List String) : Option ParseResult :=
  ppGo lines [] []

/-- `parsePlaylist` (src/helper.ts lines 213-237). -/
def parsePlaylist (playlist : String) : Option ParseResult :=
  parsePlaylistLines (jsSplitLines playlist)

/-- The line scan of `parseM3U8` (src/DownloadPlaylist.ts lines 60-112).
Differences from `parsePlaylist`: no sentinel exclusion at all, the
segment URL is looked up as `lines[lines.indexOf(line) + 1]` (first
occurrence of a character-identical line), and a line exactly equal to
`"#EXT-X-DISCONTINUITY"` breaks the loop. -/
def pmGo (all : List String) :
    List String → List KeyRec → List MediaSegment → Option ParseResult
  | [], keys, segs => some ⟨segs, keys⟩
  | line :: rest, keys, segs =>
    if jsStartsWith line "#EXT-X-KEY" then
      match parseKey line with
      | none => none
      | some k => pmGo all rest (keys ++ [k]) segs
    else if jsStartsWith line "#EXTINF:" then
      match all[jsIndexOf all line + 1]? with
      | none => none
      | some nxt =>
        let url := jsTrim nxt
        pmGo all rest keys (segs ++ [⟨url, segIndexOf url, jsLastIdx keys⟩])
    else if line = "#EXT-X-DISCONTINUITY" then
      some ⟨segs, keys⟩
    else
      pmGo all rest keys segs

/-- `parseM3U8` (src/DownloadPlaylist.ts lines 60-112) on an already split
line list. -/
def parseM3U8Lines (lines : List String) : Option ParseResult :=
  pmGo lines lines [] []

/-- `parseM3U8` (src/DownloadPlaylist.ts lines 60-112). -/
def parseM3U8 (playlist : String) : Option ParseResult :=
  parseM3U8Lines (jsSplitLines playlist)

/-- JS object assignment `attributes[k] = v` on the insertion-ordered
attribute bag built by `parseAttributes`: overwrite in place if the key is
present, append otherwise. -/
def jsObjSet (m : List (String × String)) (k v : String) : List (String × String) :=
  if m.any fun p => p.1 = k then
    m.map fun p => if p.1 = k then (k, v) else p
  else m ++ [(k, v)]

/-- Model of JS `s.toLowerCase()` (ASCII lowering; manifest attribute keys
are ASCII). -/
def jsLower (s : String) : String := ⟨s.data.map Char.toLower⟩

/-- Model of JS `s.replace(/"/g, "")`: remove every double quote. -/
def stripQuotes (s : String) : String := ⟨s.data.filter fun c => c ≠ '"'⟩

/-- `parseAttributes` (src/helper.ts lines 133-141).  `none` models the
`TypeError` thrown by `value.trim()` when a comma-separated part contains
no `=` (`value` is `undefined`): unlike `parseKey`, this function
dereferences `value` for every part. -/
def parseAttributes (line : String) : Option (List (String × String)) :=
  (jsSplit line ',').foldlM
    (fun m part =>
      let kv := jsSplit part '='
      match kv.get? 1 with
      | none => none
      | some v => some (jsObjSet m (jsLower (jsTrim (kv.headD ""))) (stripQuotes (jsTrim v))))
    []

/-- A stream entry of `parseMaster`: the attribute bag of the
`#EXT-X-STREAM-INF` line plus the `uri` property assigned afterwards
(`stream.uri = lines[lines.indexOf(line) + 1].trim()`).  In JS the `uri`
assignment would overwrite a `uri` attribute key; the separate field holds
that final value. -/
structure MasterStream where
  attrs : List (String × String)
  uri : String
deriving DecidableEq, Repr

/-- The result of `parseMaster` (src/helper.ts lines 111-131). -/
structure M3UPlaylist where
  media : List (List (String × String))
  streams : List MasterStream
deriving DecidableEq, Repr

/-- The line scan of `parseMaster` (src/helper.ts lines 115-128).  The
`uri` of a stream is `lines[lines.indexOf(line) + 1].trim()`: the line
after the FIRST occurrence of a character-identical line (`none` models
the `TypeError` when that index is past the end). -/
def masterGo (all : List String) :
    List String → List (List (String × String)) → List MasterStream → Option M3UPlaylist
  | [], media, streams => some ⟨media, streams⟩
  | line :: rest, media, streams =>
    let t := jsTrim line
    if jsStartsWith t "#EXTM3U" then masterGo all rest media streams
    else if jsStartsWith t "#EXT-X-MEDIA" then
      match parseAttributes t with
      | none => none
      | some a => masterGo all rest (media ++ [a]) streams
    else if jsStartsWith t "#EXT-X-STREAM-INF" then
      match parseAttributes t with
      | none => none
      | some a =>
        match all[jsIndexOf all line + 1]? with
        | none => none
        | some nxt => masterGo all rest media (streams ++ [⟨a, jsTrim nxt⟩])
    else masterGo all rest media streams

/-- `parseMaster` (src/helper.ts lines 111-131) on an already split line
list (the source splits on `"\n"` only). -/
def parseMasterLines (lines : List String) : Option M3UPlaylist :=
  masterGo lines lines [] []

/-- `parseMaster` (src/helper.ts lines 111-131). -/
def parseMaster (m3uContent : String) : Option M3UPlaylist :=
  parseMasterLines (jsSplit m3uContent '\n')

/-- A stream variant as declared by `interface Stream` (src/interface.ts):
`getHighestBandwidthStream` consumes values of this shape.  JS numbers are
modelled as integers (bandwidths are integral). -/
structure Stream where
  programId : Int
  bandwidth : Int
  subtitles : String
  uri : String
deriving DecidableEq, Repr

/-- JS `Math.max(...l)`: `none` models the `-Infinity` produced for an
empty argument list, which compares equal to no stream bandwidth. -/
def jsMathMax : List Int → Option Int
  | [] => none
  | x :: xs => some (xs.foldl max x)

/-- `getHighestBandwidthStream` (src/helper.ts lines 106-109):
`streams.filter(s => s.bandwidth == maxBandwidth)[0]`, with `[0]` of an
empty array (`undefined`) modelled as `none`; the source's local
`const maxBandwidth` is inlined here, which does not change the value. -/
def getHighestBandwidthStream (streams : List Stream) : Option Stream :=
  (streams.filter fun s =>
    some s.bandwidth = jsMathMax (streams.map fun t => t.bandwidth)).head?

/-- Model of JS `url.split(/720p(?:DRM)?\//)` (src/helper.ts line 47): at
each position the regex consumes `"720pDRM/"` when present, else
`"720p/"` when present (the two alternatives cannot match at the same
position).  Fuel-based recursion (fuel = remaining length) so the
definition reduces in the kernel; the fuel is never exhausted since every
step consumes at least one character. -/
def split720Fuel : Nat → List Char → List (List Char)
  | 0, s => [s]
  | fuel + 1, s =>
    match s with
    | [] => [[]]
    | c :: cs =>
      if ("720pDRM/".data).isPrefixOf (c :: cs) then
        [] :: split720Fuel fuel ((c :: cs).drop 8)
      else if ("720p/".data).isPrefixOf (c :: cs) then
        [] :: split720Fuel fuel ((c :: cs).drop 5)
      else
        match split720Fuel fuel cs with
        | [] => [[c]]
        | h :: t => (c :: h) :: t

/-- `getURLBaseDir` (src/helper.ts lines 46-52): the directory part of the
URL after the first `720p/` or `720pDRM/` marker (`""` when `parts[1]` is
`undefined` or empty, both falsy). -/
def getURLBaseDir (url : String) : String :=
  let parts := (split720Fuel url.data.length url.data).map fun l => (⟨l⟩ : String)
  match parts.get? 1 with
  | none => ""
  | some p1 =>
    if p1 = "" then ""
    else String.intercalate "/" ((jsSplit p1 '/').dropLast)

/-- Model of node `path.join` for the component lists the code builds:
empty components are ignored and a leading `"./"` is normalised away
(the code never passes `"."` or `".."` components). -/
def nodeJoin (parts : List String) : String :=
  String.intercalate "/" (parts.filter fun p => p ≠ "" && p ≠ "./")

/-- The observable actions of one `ProcessPlaylist` run, in program order:
directory creation, the segment-body HTTP GET, the key-bytes HTTP GET, and
the decrypt-and-write of an output file. -/
inductive Ev where
  | mkdir : String → Ev
  | fetchSeg : String → Ev
  | fetchKey : String → Ev
  | write : String → Ev
deriving DecidableEq, Repr

/-- Outcome of a `ProcessPlaylist` run: the chronological action trace,
whether the run completed without throwing, and the final set of files on
disk (the initial set plus everything written). -/
structure RunResult where
  events : List Ev
  ok : Bool
  fs : List String
deriving DecidableEq, Repr

/-- Dereference `segment.key`: the segment's key reference resolved
against the parsed `keys` array (`none` = JS `undefined`, whose `.name`
access throws). -/
def resolveKey (keys : List KeyRec) (s : MediaSegment) : Option KeyRec :=
  s.key.bind fun ki => keys.get? ki

/-- The output directory `join("./", ShowName, segment.key.name,
getURLBaseDir(segment.url))` (src/helper.ts lines 56-61). -/
def segDirOf (showName : String) (k : KeyRec) (url : String) : String :=
  nodeJoin ["./", showName, k.name, getURLBaseDir url]

/-- `urlParts[urlParts.length - 1]` (src/helper.ts lines 63-64). -/
def segFileOf (url : String) : String := (jsSplit url '/').getLastD ""

/-- The output path `join(Directory, lastPathSegment)` of a segment. -/
def segPathOf (showName : String) (k : KeyRec) (url : String) : String :=
  nodeJoin [segDirOf showName k url, segFileOf url]

/-- The per-segment loop of `ProcessPlaylist` (src/helper.ts lines 55-83),
with the filesystem threaded through: per source order each iteration
derives the path (throwing on an `undefined` key), creates the directory,
fetches the segment body, fetches the key bytes, and only then checks
`Bun.file(path).exists()` — skipping (success) when the file exists, else
decrypting and writing.  An exception stops the loop with `ok := false`. -/
def processSegs (keys : List KeyRec) (showName : String) :
    List MediaSegment → List String → RunResult
  | [], fs => ⟨[], true, fs⟩
  | s :: rest, fs =>
    match resolveKey keys s with
    | none => ⟨[], false, fs⟩
    | some k =>
      let dir := segDirOf showName k s.url
      let path := segPathOf showName k s.url
      let pre : List Ev := [.mkdir dir, .fetchSeg s.url, .fetchKey k.uri]
      if fs.contains path then
        let r := processSegs keys showName rest fs
        ⟨pre ++ r.events, r.ok, r.fs⟩
      else
        let r := processSegs keys showName rest (fs ++ [path])
        ⟨pre ++ [.write path] ++ r.events, r.ok, r.fs⟩

/-- `ProcessPlaylist` (src/helper.ts lines 54-84) on an already split line
list: parse, then run the per-segment loop.  A parse exception propagates
as a failed run with an empty trace. -/
def ProcessPlaylistLines (lines : List String) (showName : String)
    (fs : List String) : RunResult :=
  match parsePlaylistLines lines with
  | none => ⟨[], false, fs⟩
  | some r => processSegs r.keys showName r.segments fs

/-- `ProcessPlaylist` (src/helper.ts lines 54-84).  The extra `fs`
argument is the set of output files present on disk when the run starts. -/
def ProcessPlaylist (playlist showName : String) (fs : List String) : RunResult :=
  ProcessPlaylistLines (jsSplitLines playlist) showName fs

/-- The key URIs fetched during a run, in order. -/
def keyFetchesOf (evs : List Ev) : List String :=
  evs.filterMap fun e =>
    match e with
    | .fetchKey u => some u
    | _ => none

/-- The `uri` computed by the `URI` case of `parseKey` for one
comma-separated part: `value.trim().slice(1, -1)` (with `""` standing for
the `undefined` value of a part without `=`, on which `parseKey` throws). -/
def keyUriOfPart (part : String) : String :=
  sliceOneNegOne (jsTrim (((jsSplit part '=').get? 1).getD ""))

section SharedLemmas

lemma foldl_max_mem (xs : List Int) (a : Int) :
    xs.foldl max a = a ∨ xs.foldl max a ∈ xs := by
  induction xs generalizing a with
  | nil => left; rfl
  | cons x xs ih =>
    simp only [List.foldl_cons]
    rcases ih (max a x) with h | h
    · rw [h]
      rcases le_total a x with hle | hle
      · right; rw [max_eq_right hle]; exact List.mem_cons_self x xs
      · left; exact max_eq_left hle
    · right; exact List.mem_cons_of_mem x h

lemma le_foldl_max (xs : List Int) (a : Int) :
    a ≤ xs.foldl max a ∧ ∀ x ∈ xs, x ≤ xs.foldl max a := by
  induction xs generalizing a with
  | nil => exact ⟨le_refl a, by intro x hx; cases hx⟩
  | cons x xs ih =>
    simp only [List.foldl_cons]
    obtain ⟨h1, h2⟩ := ih (max a x)
    refine ⟨le_trans (le_max_left a x) h1, ?_⟩
    intro y hy
    rcases List.mem_cons.mp hy with rfl | hy
    · exact le_trans (le_max_right a y) h1
    · exact h2 y hy

lemma filter_head?_eq_find? (p : α → Bool) (l : List α) :
    (l.filter p).head? = l.find? p := by
  induction l with
  | nil => rfl
  | cons x xs ih =>
    by_cases hx : p x
    · simp [List.filter_cons, hx, List.find?_cons_of_pos]
    · rw [List.find?_cons_of_neg _ (by simp [hx])]
      simp only [List.filter_cons, hx]
      simp [ih]

lemma find?_eq_some_split {p : α → Bool} {l : List α} {a : α}
    (h : l.find? p = some a) :
    p a = true ∧ ∃ l1 l2, l = l1 ++ a :: l2 ∧ ∀ x ∈ l1, p x = false := by
  induction l with
  | nil => simp at h
  | cons x xs ih =>
    by_cases hx : p x
    · rw [List.find?_cons_of_pos _ hx] at h
      cases h
      exact ⟨hx, [], xs, rfl, by intro y hy; cases hy⟩
    · rw [List.find?_cons_of_neg _ (by simp [hx])] at h
      obtain ⟨hp, l1, l2, heq, hl1⟩ := ih h
      refine ⟨hp, x :: l1, l2, by rw [heq]; rfl, ?_⟩
      intro y hy
      rcases List.mem_cons.mp hy with rfl | hy
      · simp [hx]
      · exact hl1 y hy

lemma jsIndexOf_append {a : String} :
    ∀ {l1 : List String} (l2 : List String), a ∈ l1 →
      jsIndexOf (l1 ++ l2) a = jsIndexOf l1 a := by
  intro l1
  induction l1 with
  | nil => intro l2 h; cases h
  | cons x xs ih =>
    intro l2 h
    simp only [List.cons_append, jsIndexOf]
    by_cases hx : x = a
    · rw [if_pos hx, if_pos hx]
    · rw [if_neg hx, if_neg hx]
      have hmem : a ∈ xs := by
        rcases List.mem_cons.mp h with rfl | h2
        · exact absurd rfl hx
        · exact h2
      simp only [List.append_eq]
      rw [ih l2 hmem]

lemma jsIndexOf_lt_length {a : String} :
    ∀ {l : List String}, a ∈ l → jsIndexOf l a < l.length := by
  intro l
  induction l with
  | nil => intro h; cases h
  | cons x xs ih =>
    intro h
    simp only [jsIndexOf, List.length_cons]
    by_cases hx : x = a
    · rw [if_pos hx]; omega
    · rw [if_neg hx]
      have hmem : a ∈ xs := by
        rcases List.mem_cons.mp h with rfl | h2
        · exact absurd rfl hx
        · exact h2
      have := ih hmem
      omega

lemma getElem?_append_stable (l1 : List String) (x : String) (l2 l3 : List String)
    (i : Nat) (hi : i ≤ l1.length) :
    (l1 ++ x :: l2)[i]? = (l1 ++ x :: l3)[i]? := by
  rcases lt_or_eq_of_le hi with h | h
  · rw [List.getElem?_append_left h, List.getElem?_append_left h]
  · subst h
    rw [List.getElem?_append_right (le_refl _), List.getElem?_append_right (le_refl _)]
    simp

end SharedLemmas

section ParseInvariants

lemma ppGo_not_excluded :
    ∀ (ls : List String) (keys : List KeyRec) (segs : List MediaSegment)
      (r : ParseResult), ppGo ls keys segs = some r →
      (∀ k ∈ keys, isExcluded k.uri = false) →
      (∀ s ∈ segs, isExcluded s.url = false) →
      (∀ k ∈ r.keys, isExcluded k.uri = false) ∧
      (∀ s ∈ r.segments, isExcluded s.url = false) := by
  intro ls
  induction ls with
  | nil =>
    intro keys segs r h hk hs
    simp only [ppGo] at h
    cases h
    exact ⟨hk, hs⟩
  | cons line rest ih =>
    intro keys segs r h hk hs
    simp only [ppGo] at h
    by_cases h1 : jsStartsWith line "#EXT-X-KEY" = true
    · rw [if_pos h1] at h
      cases hpk : parseKey line with
      | none => simp only [hpk] at h; cases h
      | some k =>
        simp only [hpk] at h
        by_cases h2 : isExcluded k.uri = true
        · rw [if_pos h2] at h
          exact ih keys segs r h hk hs
        · rw [if_neg h2] at h
          refine ih (keys ++ [k]) segs r h ?_ hs
          intro k2 hk2
          rcases List.mem_append.mp hk2 with hk2 | hk2
          · exact hk k2 hk2
          · rcases List.mem_singleton.mp hk2 with rfl
            exact eq_false_of_ne_true h2
    · rw [if_neg h1] at h
      by_cases h2 : jsStartsWith line "#EXTINF:" = true
      · rw [if_pos h2] at h
        cases hnx : rest.head? with
        | none => simp only [hnx] at h; cases h
        | some nxt =>
          simp only [hnx] at h
          by_cases h3 : isExcluded (jsTrim nxt) = true
          · rw [if_pos h3] at h
            exact ih keys segs r h hk hs
          · rw [if_neg h3] at h
            refine ih keys (segs ++ [_]) r h hk ?_
            intro s2 hs2
            rcases List.mem_append.mp hs2 with hs2 | hs2
            · exact hs s2 hs2
            · rcases List.mem_singleton.mp hs2 with rfl
              exact eq_false_of_ne_true h3
      · rw [if_neg h2] at h
        exact ih keys segs r h hk hs

lemma ppGo_keys_parse :
    ∀ (ls : List String) (keys : List KeyRec) (segs : List MediaSegment)
      (r : ParseResult), ppGo ls keys segs = some r →
      ∀ line ∈ ls, jsStartsWith line "#EXT-X-KEY" = true → parseKey line ≠ none := by
  intro ls
  induction ls with
  | nil => intro keys segs r _ line hl; cases hl
  | cons hd rest ih =>
    intro keys segs r h line hl hpre
    simp only [ppGo] at h
    rcases List.mem_cons.mp hl with rfl | hl
    · rw [if_pos hpre] at h
      cases hpk : parseKey line with
      | none => simp only [hpk] at h; cases h
      | some k => simp [hpk]
    · by_cases h1 : jsStartsWith hd "#EXT-X-KEY" = true
      · rw [if_pos h1] at h
        cases hpk : parseKey hd with
        | none => simp only [hpk] at h; cases h
        | some k =>
          simp only [hpk] at h
          by_cases h2 : isExcluded k.uri = true
          · rw [if_pos h2] at h; exact ih _ _ _ h line hl hpre
          · rw [if_neg h2] at h; exact ih _ _ _ h line hl hpre
      · rw [if_neg h1] at h
        by_cases h2 : jsStartsWith hd "#EXTINF:" = true
        · rw [if_pos h2] at h
          cases hnx : rest.head? with
          | none => simp only [hnx] at h; cases h
          | some nxt =>
            simp only [hnx] at h
            by_cases h3 : isExcluded (jsTrim nxt) = true
            · rw [if_pos h3] at h; exact ih _ _ _ h line hl hpre
            · rw [if_neg h3] at h; exact ih _ _ _ h line hl hpre
        · rw [if_neg h2] at h
          exact ih _ _ _ h line hl hpre

lemma parseKey_foldl_bad {parts : List String} (k0 : KeyRec)
    (h : ∃ part ∈ parts, jsTrim ((jsSplit part '=').headD "") = "URI" ∧
          (jsSplit (keyUriOfPart part) '/').length < 6) :
    parts.foldlM parseKeyStep k0 = none := by
  induction parts generalizing k0 with
  | nil => obtain ⟨p, hp, _⟩ := h; cases hp
  | cons q qs ih =>
    obtain ⟨p, hp, huri, hlen⟩ := h
    rcases List.mem_cons.mp hp with rfl | hp
    · have hstep : parseKeyStep k0 p = none := by
        simp only [parseKeyStep]
        rw [if_pos huri]
        cases hv : (jsSplit p '=').get? 1 with
        | none => rfl
        | some v =>
          have hvv : sliceOneNegOne (jsTrim v) = keyUriOfPart p := by
            simp only [keyUriOfPart, hv, Option.getD_some]
          have hn : (jsSplit (sliceOneNegOne (jsTrim v)) '/')[5]? = none := by
            rw [hvv]
            exact List.getElem?_eq_none (by omega)
          simp [hn]
      simp [List.foldlM, hstep]
    · cases hq : parseKeyStep k0 q with
      | none => simp [List.foldlM, hq]
      | some k1 =>
        simp only [List.foldlM, hq, Option.bind_some]
        exact ih k1 ⟨p, hp, huri, hlen⟩

end ParseInvariants

/-- C5: for every non-empty list of stream variants,
`getHighestBandwidthStream` returns a variant of maximum bandwidth, and on
ties the first such variant in manifest order (everything before it has a
strictly smaller bandwidth); in particular on bandwidths
[500000, 1200000, 1200000, 300000] it returns the entry at index 1. -/
theorem getHighestBandwidthStream_max_first :
    (∀ streams : List Stream, streams ≠ [] →
      ∃ s l1 l2, getHighestBandwidthStream streams = some s ∧
        streams = l1 ++ s :: l2 ∧
        (∀ t ∈ l1, t.bandwidth < s.bandwidth) ∧
        (∀ t ∈ streams, t.bandwidth ≤ s.bandwidth)) ∧
    getHighestBandwidthStream
        [⟨1, 500000, "s", "v0"⟩, ⟨1, 1200000, "s", "v1"⟩,
         ⟨1, 1200000, "s", "v2"⟩, ⟨1, 300000, "s", "v3"⟩] =
      some ⟨1, 1200000, "s", "v1"⟩ := by
  constructor
  · intro streams hne
    match streams, hne with
    | x :: xs, _ =>
      have hmax : jsMathMax ((x :: xs).map fun t => t.bandwidth) =
          some ((xs.map fun t => t.bandwidth).foldl max x.bandwidth) := by
        simp [jsMathMax]
      set M := (xs.map fun t => t.bandwidth).foldl max x.bandwidth with hM
      have hle : ∀ t ∈ x :: xs, t.bandwidth ≤ M := by
        intro t ht
        rcases List.mem_cons.mp ht with rfl | ht
        · exact (le_foldl_max _ _).1
        · exact (le_foldl_max _ _).2 _ (List.mem_map_of_mem _ ht)
      have hmem : M ∈ (x :: xs).map fun t => t.bandwidth := by
        rcases foldl_max_mem (xs.map fun t => t.bandwidth) x.bandwidth with h | h
        · rw [← hM] at h; rw [h]; exact List.mem_map_of_mem _ (List.mem_cons_self x xs)
        · rw [← hM] at h; exact List.mem_cons_of_mem _ h
      obtain ⟨t, htmem, htM⟩ := List.mem_map.mp hmem
      have hfind : (((x :: xs)).find? fun s =>
          decide (some s.bandwidth = jsMathMax ((x :: xs).map fun t => t.bandwidth))).isSome := by
        rw [List.find?_isSome]
        exact ⟨t, htmem, by rw [hmax]; simp [htM]⟩
      obtain ⟨s, hs⟩ := Option.isSome_iff_exists.mp hfind
      obtain ⟨hps, l1, l2, hsplit, hl1⟩ := find?_eq_some_split hs
      have hsM : s.bandwidth = M := by
        rw [hmax] at hps
        simpa using hps
      refine ⟨s, l1, l2, ?_, hsplit, ?_, ?_⟩
      · show ((x :: xs).filter _).head? = some s
        rw [filter_head?_eq_find?]
        exact hs
      · intro u hu
        have h1 := hl1 u hu
        rw [hmax] at h1
        have hne2 : u.bandwidth ≠ M := by simpa using h1
        have hule : u.bandwidth ≤ M := by
          refine hle u ?_
          rw [hsplit]
          exact List.mem_append_left _ hu
        rw [hsM]
        exact lt_of_le_of_ne hule hne2
      · intro u hu
        rw [hsM]
        exact hle u hu
  · decide

/-- Witness for C5 at the four-variant list from the claim. -/
theorem getHighestBandwidthStream_max_first_witness :
    ([⟨1, 500000, "s", "v0"⟩, ⟨1, 1200000, "s", "v1"⟩,
      ⟨1, 1200000, "s", "v2"⟩, ⟨1, 300000, "s", "v3"⟩] : List Stream) ≠ [] ∧
    (∃ s l1 l2,
      getHighestBandwidthStream
          [⟨1, 500000, "s", "v0"⟩, ⟨1, 1200000, "s", "v1"⟩,
           ⟨1, 1200000, "s", "v2"⟩, ⟨1, 300000, "s", "v3"⟩] = some s ∧
      [⟨1, 500000, "s", "v0"⟩, ⟨1, 1200000, "s", "v1"⟩,
       ⟨1, 1200000, "s", "v2"⟩, ⟨1, 300000, "s", "v3"⟩] = l1 ++ s :: l2 ∧
      (∀ t ∈ l1, t.bandwidth < s.bandwidth) ∧
      (∀ t ∈ [⟨1, 500000, "s", "v0"⟩, ⟨1, 1200000, "s", "v1"⟩,
              (⟨1, 1200000, "s", "v2"⟩ : Stream), ⟨1, 300000, "s", "v3"⟩],
        t.bandwidth ≤ s.bandwidth)) :=
  ⟨by decide, getHighestBandwidthStream_max_first.1 _ (by decide)⟩

/-- C6: the result of `parsePlaylist` never contains a key whose URI, nor a
segment whose URL, matches one of the two excluded sentinel identifiers
(in particular for manifests where a sentinel occurs both as a KEY URI and
as a segment URL). -/
theorem parsePlaylist_excludes_sentinels :
    ∀ (lines : List String) (r : ParseResult), parsePlaylistLines lines = some r →
      (∀ k ∈ r.keys, isExcluded k.uri = false) ∧
      (∀ s ∈ r.segments, isExcluded s.url = false) := by
  intro lines r h
  exact ppGo_not_excluded lines [] [] r h (by intro k hk; cases hk)
    (by intro s hs; cases hs)

/-- Witness for C6: a manifest in which the sentinel `099_Pluto_TV_OandO`
occurs both as a KEY URI and as a segment URL, parsed successfully; the
result contains neither. -/
theorem parsePlaylist_excludes_sentinels_witness :
    (∀ k ∈ (ParseResult.mk [⟨"s-1.ts", "1", some 0⟩]
        [⟨"", "a/b/c/d/e/f", "2f"⟩]).keys, isExcluded k.uri = false) ∧
    (∀ s ∈ (ParseResult.mk [⟨"s-1.ts", "1", some 0⟩]
        [⟨"", "a/b/c/d/e/f", "2f"⟩]).segments, isExcluded s.url = false) :=
  parsePlaylist_excludes_sentinels
    ["#EXT-X-KEY:,URI=\"a/b/c/d/e/099_Pluto_TV_OandO\",IV=0x1f",
     "#EXT-X-KEY:,URI=\"a/b/c/d/e/f\",IV=0x2f",
     "#EXTINF:4,", "x-099_Pluto_TV_OandO.ts",
     "#EXTINF:4,", "s-1.ts"]
    ⟨[⟨"s-1.ts", "1", some 0⟩], [⟨"", "a/b/c/d/e/f", "2f"⟩]⟩ (by decide)

/-- C10: a KEY line containing a `URI` attribute whose (quote-stripped)
value has fewer than six `/`-separated parts makes `parseKey` throw
(`uriParts[5]` is `undefined`), and consequently `parsePlaylist` returns a
result only when every KEY line's URI attribute has at least six
`/`-separated parts — the bound required by `uriParts[5].slice(25)`. -/
theorem parseKey_uri_needs_six_parts :
    (∀ line : String,
      (∃ part ∈ jsSplit line ',', jsTrim ((jsSplit part '=').headD "") = "URI" ∧
        (jsSplit (keyUriOfPart part) '/').length < 6) →
      parseKey line = none) ∧
    (∀ (lines : List String) (r : ParseResult), parsePlaylistLines lines = some r →
      ∀ line ∈ lines, jsStartsWith line "#EXT-X-KEY" = true →
      ∀ part ∈ jsSplit line ',', jsTrim ((jsSplit part '=').headD "") = "URI" →
        6 ≤ (jsSplit (keyUriOfPart part) '/').length) := by
  constructor
  · intro line h
    exact parseKey_foldl_bad _ h
  · intro lines r h line hl hpre part hpart huri
    by_contra hlt
    push_neg at hlt
    exact ppGo_keys_parse lines [] [] r h line hl hpre
      (parseKey_foldl_bad _ ⟨part, hpart, huri, hlt⟩)

/-- Witness for C10: a KEY line whose URI `a/b` has only two path parts;
`parseKey` throws on it. -/
theorem parseKey_uri_needs_six_parts_witness :
    (∃ part ∈ jsSplit "#EXT-X-KEY:,URI=\"a/b\",IV=0x1f" ',',
      jsTrim ((jsSplit part '=').headD "") = "URI" ∧
      (jsSplit (keyUriOfPart part) '/').length < 6) ∧
    parseKey "#EXT-X-KEY:,URI=\"a/b\",IV=0x1f" = none :=
  ⟨by decide, parseKey_uri_needs_six_parts.1 _ (by decide)⟩

section Discontinuity

lemma pmGo_disc (pre post1 post2 : List String)
    (hD : "#EXT-X-DISCONTINUITY" ∉ pre) :
    ∀ (curPre : List String), (∀ x ∈ curPre, x ∈ pre) →
    ∀ (keys : List KeyRec) (segs : List MediaSegment),
      pmGo (pre ++ "#EXT-X-DISCONTINUITY" :: post1)
        (curPre ++ "#EXT-X-DISCONTINUITY" :: post1) keys segs =
      pmGo (pre ++ "#EXT-X-DISCONTINUITY" :: post2)
        (curPre ++ "#EXT-X-DISCONTINUITY" :: post2) keys segs := by
  intro curPre
  induction curPre with
  | nil =>
    intro _ keys segs
    have e1 : jsStartsWith "#EXT-X-DISCONTINUITY" "#EXT-X-KEY" = false := by decide
    have e2 : jsStartsWith "#EXT-X-DISCONTINUITY" "#EXTINF:" = false := by decide
    simp [pmGo, e1, e2]
  | cons x curPre2 ih =>
    intro hmem keys segs
    have hx : x ∈ pre := hmem x (List.mem_cons_self _ _)
    have hmem2 : ∀ y ∈ curPre2, y ∈ pre := fun y hy =>
      hmem y (List.mem_cons_of_mem _ hy)
    simp only [List.cons_append, pmGo]
    by_cases h1 : jsStartsWith x "#EXT-X-KEY" = true
    · rw [if_pos h1, if_pos h1]
      cases hpk : parseKey x with
      | none => rfl
      | some k => exact ih hmem2 (keys ++ [k]) segs
    · rw [if_neg h1, if_neg h1]
      by_cases h2 : jsStartsWith x "#EXTINF:" = true
      · rw [if_pos h2, if_pos h2]
        have hidx1 : jsIndexOf (pre ++ "#EXT-X-DISCONTINUITY" :: post1) x =
            jsIndexOf pre x := jsIndexOf_append _ hx
        have hidx2 : jsIndexOf (pre ++ "#EXT-X-DISCONTINUITY" :: post2) x =
            jsIndexOf pre x := jsIndexOf_append _ hx
        have hlt := jsIndexOf_lt_length hx
        have hlook :
            (pre ++ "#EXT-X-DISCONTINUITY" :: post1)[jsIndexOf
                (pre ++ "#EXT-X-DISCONTINUITY" :: post1) x + 1]? =
            (pre ++ "#EXT-X-DISCONTINUITY" :: post2)[jsIndexOf
                (pre ++ "#EXT-X-DISCONTINUITY" :: post2) x + 1]? := by
          rw [hidx1, hidx2]
          exact getElem?_append_stable pre _ post1 post2 _ (by omega)
        rw [hlook]
        cases hnx : (pre ++ "#EXT-X-DISCONTINUITY" :: post2)[jsIndexOf
            (pre ++ "#EXT-X-DISCONTINUITY" :: post2) x + 1]? with
        | none => rfl
        | some nxt => exact ih hmem2 keys (segs ++ [_])
      · rw [if_neg h2, if_neg h2]
        by_cases h3 : x = "#EXT-X-DISCONTINUITY"
        · exact absurd (h3 ▸ hx) hD
        · rw [if_neg h3, if_neg h3]
          exact ih hmem2 keys segs

/-- C2 (amended): `parseM3U8` (src/DownloadPlaylist.ts) stops at the first
`#EXT-X-DISCONTINUITY` line — its result does not depend on anything after
that line, i.e. it equals the parse of the manifest truncated right after
the marker.  (`parsePlaylist` in src/helper.ts, by contrast, ignores the
marker; see the counterexample.) -/
theorem parseM3U8_stops_at_discontinuity :
    ∀ (pre post : List String), "#EXT-X-DISCONTINUITY" ∉ pre →
      parseM3U8Lines (pre ++ "#EXT-X-DISCONTINUITY" :: post) =
      parseM3U8Lines (pre ++ ["#EXT-X-DISCONTINUITY"]) := by
  intro pre post hD
  unfold parseM3U8Lines
  exact pmGo_disc pre post [] hD pre (fun x hx => hx) [] []

/-- Counterexample to C2 as stated: `parsePlaylist` (src/helper.ts, the
parser used by `ProcessPlaylist`) does NOT stop at
`#EXT-X-DISCONTINUITY` — the segment `s-2.ts` declared after the marker is
present in the returned segments list. -/
theorem parsePlaylist_ignores_discontinuity_cex :
    (parsePlaylistLines
        ["#EXT-X-KEY:,URI=\"a/b/c/d/e/f\",IV=0x1f", "#EXTINF:4,", "s-1.ts",
         "#EXT-X-DISCONTINUITY", "#EXTINF:4,", "s-2.ts"]).map
        (fun r => r.segments.map fun s => s.url) = some ["s-1.ts", "s-2.ts"] ∧
    ¬ (parsePlaylistLines
        ["#EXT-X-KEY:,URI=\"a/b/c/d/e/f\",IV=0x1f", "#EXTINF:4,", "s-1.ts",
         "#EXT-X-DISCONTINUITY", "#EXTINF:4,", "s-2.ts"]).map
        (fun r => r.segments.map fun s => s.url) = some ["s-1.ts"] :=
  ⟨by decide, by decide⟩

/-- Witness for the amended C2 at a concrete manifest with two segments
after the discontinuity marker. -/
theorem parseM3U8_stops_at_discontinuity_witness :
    ("#EXT-X-DISCONTINUITY" ∉ (["#EXTINF:4,", "s-1.ts"] : List String)) ∧
    parseM3U8Lines
        (["#EXTINF:4,", "s-1.ts"] ++
          "#EXT-X-DISCONTINUITY" :: ["#EXTINF:4,", "s-2.ts"]) =
      parseM3U8Lines (["#EXTINF:4,", "s-1.ts"] ++ ["#EXT-X-DISCONTINUITY"]) :=
  ⟨by decide, parseM3U8_stops_at_discontinuity _ _ (by decide)⟩

end Discontinuity

section KeyScoping

/-- A well-formed segment declaration pair for `parsePlaylist`: an
`#EXTINF:` line (not also a KEY line) followed by a URL line that is not
itself a tag line and is not sentinel-excluded. -/
def segPairOk (p : String × String) : Prop :=
  jsStartsWith p.1 "#EXTINF:" = true ∧
  jsStartsWith p.1 "#EXT-X-KEY" = false ∧
  jsStartsWith p.2 "#EXT-X-KEY" = false ∧
  jsStartsWith p.2 "#EXTINF:" = false ∧
  isExcluded (jsTrim p.2) = false

instance (p : String × String) : Decidable (segPairOk p) := by
  unfold segPairOk
  infer_instance

lemma ppGo_segBlock :
    ∀ (ps : List (String × String)) (rest : List String) (keys : List KeyRec)
      (segs : List MediaSegment),
      (∀ p ∈ ps, segPairOk p) →
      ppGo ((ps.flatMap fun p => [p.1, p.2]) ++ rest) keys segs =
      ppGo rest keys
        (segs ++ ps.map fun p =>
          ⟨jsTrim p.2, segIndexOf (jsTrim p.2), jsLastIdx keys⟩) := by
  intro ps
  induction ps with
  | nil => intro rest keys segs _; simp
  | cons p ps2 ih =>
    intro rest keys segs hp
    obtain ⟨h1, h2, h3, h4, h5⟩ := hp p (List.mem_cons_self _ _)
    have hps2 : ∀ q ∈ ps2, segPairOk q := fun q hq =>
      hp q (List.mem_cons_of_mem _ hq)
    have h2n : ¬ jsStartsWith p.1 "#EXT-X-KEY" = true := by simp [h2]
    have h3n : ¬ jsStartsWith p.2 "#EXT-X-KEY" = true := by simp [h3]
    have h4n : ¬ jsStartsWith p.2 "#EXTINF:" = true := by simp [h4]
    have h5n : ¬ isExcluded (jsTrim p.2) = true := by simp [h5]
    simp only [List.flatMap_cons, List.cons_append, List.append_assoc]
    simp only [ppGo]
    rw [if_neg h2n, if_pos h1]
    simp only [List.head?_cons]
    rw [if_neg h5n, if_neg h3n, if_neg h4n]
    simp only [List.nil_append, List.append_eq]
    rw [ih rest keys _ hps2]
    simp [List.append_assoc]

/-- C1: in a media manifest consisting of a non-excluded KEY line `k1line`,
segment pairs `ps1`, a second non-excluded KEY line `k2line` and segment
pairs `ps2`, `parsePlaylist` returns the segments of `ps1` all carrying a
reference to the first parsed KeyRecord (index 0 of the returned `keys`)
and the segments of `ps2` all carrying a reference to the second (index
1): every segment parsed after a KEY declaration shares that KeyRecord
instance until the next KEY tag. -/
theorem parsePlaylist_key_scoping :
    ∀ (k1line k2line : String) (ps1 ps2 : List (String × String)) (k1 k2 : KeyRec),
      jsStartsWith k1line "#EXT-X-KEY" = true →
      parseKey k1line = some k1 → isExcluded k1.uri = false →
      jsStartsWith k2line "#EXT-X-KEY" = true →
      parseKey k2line = some k2 → isExcluded k2.uri = false →
      (∀ p ∈ ps1, segPairOk p) → (∀ p ∈ ps2, segPairOk p) →
      parsePlaylistLines
          (k1line :: (ps1.flatMap fun p => [p.1, p.2]) ++
            k2line :: (ps2.flatMap fun p => [p.1, p.2])) =
        some ⟨(ps1.map fun p => ⟨jsTrim p.2, segIndexOf (jsTrim p.2), some 0⟩) ++
              (ps2.map fun p => ⟨jsTrim p.2, segIndexOf (jsTrim p.2), some 1⟩),
              [k1, k2]⟩ := by
  intro k1line k2line ps1 ps2 k1 k2 hs1 hp1 he1 hs2 hp2 he2 hseg1 hseg2
  have he1n : ¬ isExcluded k1.uri = true := by simp [he1]
  have he2n : ¬ isExcluded k2.uri = true := by simp [he2]
  unfold parsePlaylistLines
  simp only [List.cons_append, ppGo]
  rw [if_pos hs1]
  simp only [hp1]
  rw [if_neg he1n]
  simp only [List.append_eq, List.nil_append]
  rw [ppGo_segBlock ps1 _ [k1] [] hseg1]
  simp only [ppGo]
  rw [if_pos hs2]
  simp only [hp2]
  rw [if_neg he2n]
  simp only [List.append_eq, List.nil_append]
  conv_lhs => rw [← List.append_nil (ps2.flatMap fun p => [p.1, p.2])]
  rw [ppGo_segBlock ps2 [] ([k1] ++ [k2]) _ hseg2]
  simp only [ppGo]
  simp [jsLastIdx]

/-- Witness for C1: two keys, one segment under the first and two under
the second; segments carry references (indices) 0, 1, 1 respectively. -/
theorem parsePlaylist_key_scoping_witness :
    parsePlaylistLines
        ["#EXT-X-KEY:,URI=\"a/b/c/d/e/f\",IV=0x1f",
         "#EXTINF:4,", "s-1.ts",
         "#EXT-X-KEY:,URI=\"a/b/c/d/e/g\",IV=0x2f",
         "#EXTINF:4,", "s-2.ts", "#EXTINF:4,", "s-3.ts"] =
      some ⟨[⟨"s-1.ts", "1", some 0⟩, ⟨"s-2.ts", "2", some 1⟩,
             ⟨"s-3.ts", "3", some 1⟩],
            [⟨"", "a/b/c/d/e/f", "1f"⟩, ⟨"", "a/b/c/d/e/g", "2f"⟩]⟩ :=
  parsePlaylist_key_scoping
    "#EXT-X-KEY:,URI=\"a/b/c/d/e/f\",IV=0x1f"
    "#EXT-X-KEY:,URI=\"a/b/c/d/e/g\",IV=0x2f"
    [("#EXTINF:4,", "s-1.ts")]
    [("#EXTINF:4,", "s-2.ts"), ("#EXTINF:4,", "s-3.ts")]
    ⟨"", "a/b/c/d/e/f", "1f"⟩ ⟨"", "a/b/c/d/e/g", "2f"⟩
    (by decide) (by decide) (by decide) (by decide) (by decide) (by decide)
    (by decide) (by decide)

end KeyScoping

section MissingKey

/-- Formalisation of C9's precondition on the lines before the first
non-excluded segment: every KEY line there parses to a sentinel-excluded
key (so it never becomes the current key), and every `#EXTINF:` line there
refers to an excluded segment URL (so no segment is pushed); `nxt` is the
line that follows the list, used as the successor of a trailing
`#EXTINF:` line. -/
def inertBefore : List String → String → Bool
  | [], _ => true
  | x :: rest, nxt =>
    (if jsStartsWith x "#EXT-X-KEY" then
      match parseKey x with
      | some k => isExcluded k.uri
      | none => false
    else if jsStartsWith x "#EXTINF:" then
      isExcluded (jsTrim (rest.headD nxt))
    else true) && inertBefore rest nxt

lemma ppGo_inert_skip :
    ∀ (l1 : List String) (nxt : String) (rest2 : List String)
      (keys : List KeyRec) (segs : List MediaSegment),
      inertBefore l1 nxt = true →
      ppGo (l1 ++ nxt :: rest2) keys segs = ppGo (nxt :: rest2) keys segs := by
  intro l1
  induction l1 with
  | nil => intro nxt rest2 keys segs _; rfl
  | cons x l1x ih =>
    intro nxt rest2 keys segs h
    simp only [inertBefore, Bool.and_eq_true] at h
    obtain ⟨hx, hrest⟩ := h
    have step : ppGo ((x :: l1x) ++ nxt :: rest2) keys segs =
        ppGo (l1x ++ nxt :: rest2) keys segs := by
      simp only [List.cons_append, ppGo]
      by_cases h1 : jsStartsWith x "#EXT-X-KEY" = true
      · rw [if_pos h1] at hx
        rw [if_pos h1]
        cases hpk : parseKey x with
        | none => simp [hpk] at hx
        | some k =>
          simp only [hpk] at hx
          simp only [hpk]
          rw [if_pos hx]
          simp only [List.append_eq]
      · rw [if_neg h1] at hx
        rw [if_neg h1]
        by_cases h2 : jsStartsWith x "#EXTINF:" = true
        · rw [if_pos h2] at hx
          rw [if_pos h2]
          cases l1x with
          | nil =>
            simp only [List.headD_nil] at hx
            simp only [List.append_eq, List.nil_append, List.head?_cons]
            rw [if_pos hx]
          | cons y l1y =>
            simp only [List.headD_cons] at hx
            simp only [List.append_eq, List.cons_append, List.head?_cons]
            rw [if_pos hx]
        · rw [if_neg h2] at hx
          rw [if_neg h2]
          simp only [List.append_eq]
    rw [step]
    exact ih nxt rest2 keys segs hrest

lemma ppGo_segs_prefix :
    ∀ (ls : List String) (keys : List KeyRec) (segs : List MediaSegment)
      (r : ParseResult), ppGo ls keys segs = some r →
      ∃ t, r.segments = segs ++ t := by
  intro ls
  induction ls with
  | nil =>
    intro keys segs r h
    simp only [ppGo] at h
    cases h
    exact ⟨[], (List.append_nil segs).symm⟩
  | cons line rest ih =>
    intro keys segs r h
    simp only [ppGo] at h
    by_cases h1 : jsStartsWith line "#EXT-X-KEY" = true
    · rw [if_pos h1] at h
      cases hpk : parseKey line with
      | none => simp only [hpk] at h; cases h
      | some k =>
        simp only [hpk] at h
        by_cases h2 : isExcluded k.uri = true
        · rw [if_pos h2] at h; exact ih _ _ _ h
        · rw [if_neg h2] at h; exact ih _ _ _ h
    · rw [if_neg h1] at h
      by_cases h2 : jsStartsWith line "#EXTINF:" = true
      · rw [if_pos h2] at h
        cases hnx : rest.head? with
        | none => simp only [hnx] at h; cases h
        | some nxt =>
          simp only [hnx] at h
          by_cases h3 : isExcluded (jsTrim nxt) = true
          · rw [if_pos h3] at h; exact ih _ _ _ h
          · rw [if_neg h3] at h
            obtain ⟨t, ht⟩ := ih _ _ _ h
            refine ⟨⟨jsTrim nxt, segIndexOf (jsTrim nxt), jsLastIdx keys⟩ :: t, ?_⟩
            rw [ht]
            simp
      · rw [if_neg h2] at h
        exact ih _ _ _ h

/-- C9: for a playlist whose first non-excluded segment declaration
(`ext` then `url`) is not preceded by any non-excluded KEY tag (every
earlier KEY line is sentinel-excluded, every earlier EXTINF refers to an
excluded URL), a successful parse gives that segment an undefined (`none`)
key reference, and `ProcessPlaylist` fails with an empty action trace —
it dereferences `segment.key.name` and throws before any directory
creation, fetch, decryption or write, so such a playlist is never
processed to completion. -/
theorem ProcessPlaylist_throws_on_missing_key :
    ∀ (l1 : List String) (ext url : String) (l2 : List String)
      (showName : String) (fs : List String),
      inertBefore l1 ext = true →
      jsStartsWith ext "#EXTINF:" = true →
      jsStartsWith ext "#EXT-X-KEY" = false →
      isExcluded (jsTrim url) = false →
      (∀ r, parsePlaylistLines (l1 ++ ext :: url :: l2) = some r →
        r.segments.head? = some ⟨jsTrim url, segIndexOf (jsTrim url), none⟩) ∧
      ProcessPlaylistLines (l1 ++ ext :: url :: l2) showName fs =
        ⟨[], false, fs⟩ := by
  intro l1 ext url l2 showName fs hinert hext hextk hurl
  have hskip := ppGo_inert_skip l1 ext (url :: l2) [] [] hinert
  have hstep : ppGo (ext :: url :: l2) [] [] =
      ppGo (url :: l2) [] [⟨jsTrim url, segIndexOf (jsTrim url), none⟩] := by
    simp only [ppGo]
    rw [if_neg (by simp [hextk]), if_pos hext]
    simp only [List.head?_cons]
    rw [if_neg (by simp [hurl])]
    simp [jsLastIdx]
  constructor
  · intro r hr
    unfold parsePlaylistLines at hr
    rw [hskip, hstep] at hr
    obtain ⟨t, ht⟩ := ppGo_segs_prefix _ _ _ _ hr
    rw [ht]
    simp
  · unfold ProcessPlaylistLines parsePlaylistLines
    rw [hskip, hstep]
    cases hp : ppGo (url :: l2) [] [⟨jsTrim url, segIndexOf (jsTrim url), none⟩] with
    | none => rfl
    | some r =>
      obtain ⟨t, ht⟩ := ppGo_segs_prefix _ _ _ _ hp
      simp only []
      rw [ht]
      simp [processSegs, resolveKey]

/-- Witness for C9: a playlist whose only segment has no preceding KEY
tag; the run fails with an empty trace. -/
theorem ProcessPlaylist_throws_on_missing_key_witness :
    inertBefore ["#EXTM3U"] "#EXTINF:4," = true ∧
    ProcessPlaylistLines (["#EXTM3U"] ++ "#EXTINF:4," :: "seg-1.ts" :: [])
        "S" [] = ⟨[], false, []⟩ :=
  ⟨by decide,
    (ProcessPlaylist_throws_on_missing_key ["#EXTM3U"] "#EXTINF:4," "seg-1.ts"
      [] "S" [] (by decide) (by decide) (by decide) (by decide)).2⟩

end MissingKey

section ProcessRuns

lemma processSegs_all_existing :
    ∀ (segs : List MediaSegment) (keys : List KeyRec) (showName : String)
      (fs : List String),
      (∀ s ∈ segs, ∃ k, resolveKey keys s = some k ∧
        fs.contains (segPathOf showName k s.url) = true) →
      processSegs keys showName segs fs =
        ⟨segs.flatMap fun s =>
            match resolveKey keys s with
            | some k => [Ev.mkdir (segDirOf showName k s.url),
                         Ev.fetchSeg s.url, Ev.fetchKey k.uri]
            | none => [],
          true, fs⟩ := by
  intro segs
  induction segs with
  | nil => intro keys showName fs _; rfl
  | cons s rest ih =>
    intro keys showName fs h
    obtain ⟨k, hk, hfs⟩ := h s (List.mem_cons_self _ _)
    have hrest : ∀ t ∈ rest, ∃ k2, resolveKey keys t = some k2 ∧
        fs.contains (segPathOf showName k2 t.url) = true := fun t ht =>
      h t (List.mem_cons_of_mem _ ht)
    simp only [processSegs, hk]
    rw [if_pos hfs]
    rw [ih keys showName fs hrest]
    simp only [List.flatMap_cons, hk]

lemma processSegs_keyFetches :
    ∀ (segs : List MediaSegment) (keys : List KeyRec) (showName : String)
      (fs : List String),
      (∀ s ∈ segs, (resolveKey keys s).isSome = true) →
      keyFetchesOf (processSegs keys showName segs fs).events =
        segs.filterMap fun s => (resolveKey keys s).map fun k => k.uri := by
  intro segs
  induction segs with
  | nil => intro keys showName fs _; rfl
  | cons s rest ih =>
    intro keys showName fs h
    obtain ⟨k, hk⟩ := Option.isSome_iff_exists.mp (h s (List.mem_cons_self _ _))
    have hrest : ∀ t ∈ rest, (resolveKey keys t).isSome = true := fun t ht =>
      h t (List.mem_cons_of_mem _ ht)
    simp only [processSegs, hk]
    by_cases hc : fs.contains (segPathOf showName k s.url) = true
    · rw [if_pos hc]
      simp only [keyFetchesOf, List.filterMap_append] at ih ⊢
      rw [ih keys showName fs hrest]
      simp [hk, List.filterMap_cons]
    · rw [if_neg hc]
      simp only [keyFetchesOf, List.filterMap_append] at ih ⊢
      rw [ih keys showName (fs ++ [segPathOf showName k s.url]) hrest]
      simp [hk, List.filterMap_cons]

/-- C3 (amended): when the derived output file of every parsed segment
already exists at the start of the run, `ProcessPlaylist` succeeds,
writes nothing and leaves the filesystem unchanged — the skip is treated
as success — but it still performs the segment-body fetch and the
key-bytes fetch for every segment before checking existence; only the
decrypt-and-write step is conditional on the file's absence. -/
theorem ProcessPlaylist_existing_skips_write_not_fetch :
    ∀ (lines : List String) (showName : String) (fs : List String)
      (r : ParseResult),
      parsePlaylistLines lines = some r →
      (∀ s ∈ r.segments, ∃ k, resolveKey r.keys s = some k ∧
        fs.contains (segPathOf showName k s.url) = true) →
      (ProcessPlaylistLines lines showName fs).ok = true ∧
      (ProcessPlaylistLines lines showName fs).fs = fs ∧
      (∀ p, Ev.write p ∉ (ProcessPlaylistLines lines showName fs).events) ∧
      (∀ s ∈ r.segments,
        Ev.fetchSeg s.url ∈ (ProcessPlaylistLines lines showName fs).events ∧
        ∀ k, resolveKey r.keys s = some k →
          Ev.fetchKey k.uri ∈ (ProcessPlaylistLines lines showName fs).events) := by
  intro lines showName fs r hp hex
  unfold ProcessPlaylistLines
  simp only [hp]
  rw [processSegs_all_existing r.segments r.keys showName fs hex]
  refine ⟨rfl, rfl, ?_, ?_⟩
  · intro p hmem
    rw [List.mem_flatMap] at hmem
    obtain ⟨s, hsmem, hin⟩ := hmem
    obtain ⟨k, hk, _⟩ := hex s hsmem
    rw [hk] at hin
    simp at hin
  · intro s hsmem
    obtain ⟨k, hk, _⟩ := hex s hsmem
    constructor
    · rw [List.mem_flatMap]
      exact ⟨s, hsmem, by rw [hk]; simp⟩
    · intro k2 hk2
      rw [hk] at hk2
      cases hk2
      rw [List.mem_flatMap]
      exact ⟨s, hsmem, by rw [hk]; simp⟩

/-- Counterexample to C3 as stated: a segment whose output file already
exists is NOT skipped before the network calls — `ProcessPlaylist` still
fetches the segment body and the key bytes (the existence check happens
after both fetches); only decrypt-and-write is skipped. -/
theorem ProcessPlaylist_fetches_despite_existing_cex :
    (["S/s-1.ts"] : List String).contains
        (segPathOf "S" ⟨"", "a/b/c/d/e/f", "1f"⟩ "s-1.ts") = true ∧
    (ProcessPlaylistLines
        ["#EXT-X-KEY:,URI=\"a/b/c/d/e/f\",IV=0x1f", "#EXTINF:4,", "s-1.ts"]
        "S" ["S/s-1.ts"]).events =
      [Ev.mkdir "S", Ev.fetchSeg "s-1.ts", Ev.fetchKey "a/b/c/d/e/f"] ∧
    Ev.fetchSeg "s-1.ts" ∈ (ProcessPlaylistLines
        ["#EXT-X-KEY:,URI=\"a/b/c/d/e/f\",IV=0x1f", "#EXTINF:4,", "s-1.ts"]
        "S" ["S/s-1.ts"]).events ∧
    (ProcessPlaylistLines
        ["#EXT-X-KEY:,URI=\"a/b/c/d/e/f\",IV=0x1f", "#EXTINF:4,", "s-1.ts"]
        "S" ["S/s-1.ts"]).ok = true :=
  ⟨by decide, by decide, by decide, by decide⟩

/-- Witness for the amended C3 at a one-segment playlist whose output
file is present from the start. -/
theorem ProcessPlaylist_existing_skips_write_not_fetch_witness :
    (ProcessPlaylistLines
        ["#EXT-X-KEY:,URI=\"a/b/c/d/e/f\",IV=0x1f", "#EXTINF:4,", "s-1.ts"]
        "S" ["S/s-1.ts"]).ok = true ∧
    (ProcessPlaylistLines
        ["#EXT-X-KEY:,URI=\"a/b/c/d/e/f\",IV=0x1f", "#EXTINF:4,", "s-1.ts"]
        "S" ["S/s-1.ts"]).fs = ["S/s-1.ts"] ∧
    (∀ p, Ev.write p ∉ (ProcessPlaylistLines
        ["#EXT-X-KEY:,URI=\"a/b/c/d/e/f\",IV=0x1f", "#EXTINF:4,", "s-1.ts"]
        "S" ["S/s-1.ts"]).events) ∧
    (∀ s ∈ (ParseResult.mk [⟨"s-1.ts", "1", some 0⟩]
        [⟨"", "a/b/c/d/e/f", "1f"⟩]).segments,
      Ev.fetchSeg s.url ∈ (ProcessPlaylistLines
        ["#EXT-X-KEY:,URI=\"a/b/c/d/e/f\",IV=0x1f", "#EXTINF:4,", "s-1.ts"]
        "S" ["S/s-1.ts"]).events ∧
      ∀ k, resolveKey (ParseResult.mk [⟨"s-1.ts", "1", some 0⟩]
          [⟨"", "a/b/c/d/e/f", "1f"⟩]).keys s = some k →
        Ev.fetchKey k.uri ∈ (ProcessPlaylistLines
          ["#EXT-X-KEY:,URI=\"a/b/c/d/e/f\",IV=0x1f", "#EXTINF:4,", "s-1.ts"]
          "S" ["S/s-1.ts"]).events) := by
  refine ProcessPlaylist_existing_skips_write_not_fetch
    ["#EXT-X-KEY:,URI=\"a/b/c/d/e/f\",IV=0x1f", "#EXTINF:4,", "s-1.ts"] "S"
    ["S/s-1.ts"] ⟨[⟨"s-1.ts", "1", some 0⟩], [⟨"", "a/b/c/d/e/f", "1f"⟩]⟩
    (by decide) ?_
  intro s hs
  rw [List.mem_singleton] at hs
  subst hs
  exact ⟨⟨"", "a/b/c/d/e/f", "1f"⟩, by decide, by decide⟩

/-- C4 (amended): `ProcessPlaylist` performs no key-fetch deduplication —
within one run the key bytes are fetched over the network exactly once
per processed segment (the fetched key URIs are, in order, the key URI of
each segment), not at most once per key URI. -/
theorem ProcessPlaylist_fetches_key_per_segment :
    ∀ (lines : List String) (showName : String) (fs : List String)
      (r : ParseResult),
      parsePlaylistLines lines = some r →
      (∀ s ∈ r.segments, (resolveKey r.keys s).isSome = true) →
      keyFetchesOf (ProcessPlaylistLines lines showName fs).events =
        r.segments.filterMap fun s => (resolveKey r.keys s).map fun k => k.uri := by
  intro lines showName fs r hp hres
  unfold ProcessPlaylistLines
  simp only [hp]
  exact processSegs_keyFetches r.segments r.keys showName fs hres

/-- Counterexample to C4 as stated: two segments sharing one KeyRecord
cause two network fetches of the same key URI in a single
`ProcessPlaylist` run — the fetch count is 2, not at most 1. -/
theorem ProcessPlaylist_no_key_dedup_cex :
    (keyFetchesOf (ProcessPlaylistLines
        ["#EXT-X-KEY:,URI=\"a/b/c/d/e/f\",IV=0x1f",
         "#EXTINF:4,", "s-1.ts", "#EXTINF:4,", "s-2.ts"] "S" []).events).count
      "a/b/c/d/e/f" = 2 ∧
    ¬ (keyFetchesOf (ProcessPlaylistLines
        ["#EXT-X-KEY:,URI=\"a/b/c/d/e/f\",IV=0x1f",
         "#EXTINF:4,", "s-1.ts", "#EXTINF:4,", "s-2.ts"] "S" []).events).count
      "a/b/c/d/e/f" ≤ 1 :=
  ⟨by decide, by decide⟩

/-- Witness for the amended C4 at a two-segment playlist sharing one key:
one fetch per segment. -/
theorem ProcessPlaylist_fetches_key_per_segment_witness :
    keyFetchesOf (ProcessPlaylistLines
        ["#EXT-X-KEY:,URI=\"a/b/c/d/e/f\",IV=0x1f",
         "#EXTINF:4,", "s-1.ts", "#EXTINF:4,", "s-2.ts"] "S" []).events =
      ["a/b/c/d/e/f", "a/b/c/d/e/f"] :=
  ProcessPlaylist_fetches_key_per_segment
    ["#EXT-X-KEY:,URI=\"a/b/c/d/e/f\",IV=0x1f",
     "#EXTINF:4,", "s-1.ts", "#EXTINF:4,", "s-2.ts"] "S" []
    ⟨[⟨"s-1.ts", "1", some 0⟩, ⟨"s-2.ts", "2", some 0⟩],
     [⟨"", "a/b/c/d/e/f", "1f"⟩]⟩ (by decide) (by decide)

end ProcessRuns

section SegIndex

/-- The substring of a string after its last `-` — the whole string when
it contains no `-` (the phrasing of the corrected claim). -/
def afterLastDashL (s : List Char) : List Char :=
  (s.reverse.takeWhile fun c => c ≠ '-').reverse

/-- The corrected index computation: the part of the WHOLE url after its
last `-` (the whole url when it has none), with the first occurrence of
`".ts"` removed. -/
def indexFromWholeUrl (url : String) : String :=
  ⟨eraseFirstL ".ts".data (afterLastDashL url.data)⟩

lemma takeWhile_append_singleton (p : Char → Bool) (a : Char) :
    ∀ l : List Char, (l ++ [a]).takeWhile p =
      if l.takeWhile p = l then l ++ (if p a then [a] else []) else l.takeWhile p := by
  intro l
  induction l with
  | nil => simp [List.takeWhile_cons]
  | cons c l ih =>
    simp only [List.cons_append, List.takeWhile_cons]
    by_cases hc : p c = true
    · simp only [hc, if_true]
      rw [ih]
      by_cases h : l.takeWhile p = l <;> by_cases hpa : p a = true <;>
        simp [h, hpa, hc]
    · simp only [Bool.not_eq_true] at hc
      simp [hc]

lemma charSplit_ne_nil (sep : Char) : ∀ s : List Char, charSplit sep s ≠ [] := by
  intro s
  induction s with
  | nil => simp [charSplit]
  | cons c cs ih =>
    simp only [charSplit]
    by_cases hc : c = sep
    · simp [hc]
    · rw [if_neg hc]
      cases h : charSplit sep cs with
      | nil => exact absurd h ih
      | cons hd tl => simp

lemma charSplit_dash_getLastD :
    ∀ s : List Char,
      (charSplit '-' s).getLastD [] = afterLastDashL s ∧
      ((charSplit '-' s).length = 1 ↔ '-' ∉ s) := by
  intro s
  induction s with
  | nil =>
    refine ⟨rfl, ?_⟩
    simp [charSplit]
  | cons c cs ih =>
    obtain ⟨ih1, ih2⟩ := ih
    by_cases hc : c = '-'
    · subst hc
      constructor
      · simp only [charSplit, eq_self_iff_true, if_true]
        rw [List.getLastD_cons, ih1]
        unfold afterLastDashL
        simp only [List.reverse_cons]
        rw [takeWhile_append_singleton]
        have hpd : decide (('-' : Char) ≠ '-') = false := by decide
        rw [hpd]
        simp only [Bool.false_eq_true, if_false, List.append_nil]
        by_cases h : cs.reverse.takeWhile (fun c => decide (c ≠ '-')) = cs.reverse
        · rw [if_pos h, h]
        · rw [if_neg h]
      · simp only [charSplit, eq_self_iff_true, if_true, List.length_cons]
        constructor
        · intro h
          exfalso
          have hlen : (charSplit '-' cs).length ≠ 0 := by
            intro h0
            exact charSplit_ne_nil '-' cs (List.length_eq_zero.mp h0)
          omega
        · intro h
          exact absurd (List.mem_cons_self _ _) h
    · obtain ⟨h0, t0, hsplit⟩ : ∃ h0 t0, charSplit '-' cs = h0 :: t0 := by
        cases hX : charSplit '-' cs with
        | nil => exact absurd hX (charSplit_ne_nil '-' cs)
        | cons a b => exact ⟨a, b, rfl⟩
      have hpc : (fun c => decide (c ≠ '-')) c = true := by simp [hc]
      constructor
      · simp only [charSplit, if_neg hc, hsplit]
        unfold afterLastDashL
        simp only [List.reverse_cons]
        rw [takeWhile_append_singleton]
        simp only [hpc, if_true]
        cases t0 with
        | nil =>
          have hnd : '-' ∉ cs := ih2.mp (by rw [hsplit]; rfl)
          have hcond : cs.reverse.takeWhile (fun c => decide (c ≠ '-')) = cs.reverse := by
            rw [List.takeWhile_eq_self_iff]
            intro x hx
            have hxcs : x ∈ cs := List.mem_reverse.mp hx
            have : x ≠ '-' := by
              intro he
              exact hnd (he ▸ hxcs)
            simp [this]
          have hh0 : h0 = cs := by
            have he := ih1
            rw [hsplit] at he
            rw [List.getLastD_cons, List.getLastD_nil] at he
            unfold afterLastDashL at he
            rw [hcond, List.reverse_reverse] at he
            exact he
          rw [if_pos hcond, hh0]
          simp [List.getLastD_cons, List.getLastD_nil]
        | cons t1 t2 =>
          have hdash : '-' ∈ cs := by
            by_contra hnd
            have hl := ih2.mpr hnd
            rw [hsplit] at hl
            simp at hl
          have hcond : ¬ cs.reverse.takeWhile (fun c => decide (c ≠ '-')) = cs.reverse := by
            intro he
            have hmem : ('-' : Char) ∈ cs.reverse.takeWhile (fun c => decide (c ≠ '-')) := by
              rw [he]
              exact List.mem_reverse.mpr hdash
            have := List.mem_takeWhile_imp hmem
            simp at this
          rw [if_neg hcond]
          have e1 : ((c :: h0) :: t1 :: t2).getLastD [] = (t1 :: t2).getLastD (c :: h0) :=
            List.getLastD_cons _ _ _
          have e2 : (h0 :: t1 :: t2).getLastD [] = (t1 :: t2).getLastD h0 :=
            List.getLastD_cons _ _ _
          have e3 : (t1 :: t2).getLastD (c :: h0) = (t1 :: t2).getLastD h0 := by
            rw [List.getLastD_eq_getLast?, List.getLastD_eq_getLast?]
            cases hgl : (t1 :: t2).getLast? with
            | none =>
              rw [List.getLast?_eq_none_iff] at hgl
              cases hgl
            | some z => simp
          have he := ih1
          rw [hsplit] at he
          rw [e1, e3, ← e2, he]
          rfl
      · simp only [charSplit, if_neg hc, hsplit, List.length_cons]
        rw [hsplit] at ih2
        simp only [List.length_cons] at ih2
        constructor
        · intro h
          intro hm
          rcases List.mem_cons.mp hm with he | hm2
          · exact hc he.symm
          · exact (ih2.mp h) hm2
        · intro h
          exact ih2.mpr fun hm => h (List.mem_cons_of_mem _ hm)

lemma getLastD_map (f : List Char → String) :
    ∀ (l : List (List Char)) (d : List Char),
      (l.map f).getLastD (f d) = f (l.getLastD d) := by
  intro l
  induction l with
  | nil => intro d; rfl
  | cons a l ih =>
    intro d
    simp only [List.map_cons, List.getLastD_cons]
    exact ih a

lemma jsSplit_dash_getLastD (url : String) :
    (jsSplit url '-').getLastD "" = ⟨afterLastDashL url.data⟩ := by
  unfold jsSplit
  have h0 : ("" : String) = (⟨[]⟩ : String) := rfl
  rw [h0, getLastD_map (fun l => (⟨l⟩ : String)) (charSplit '-' url.data) []]
  rw [(charSplit_dash_getLastD url.data).1]

lemma segIndexOf_eq (url : String) : segIndexOf url = indexFromWholeUrl url := by
  simp only [segIndexOf, indexFromWholeUrl]
  rw [jsSplit_dash_getLastD]
  by_cases h : (⟨eraseFirstL ".ts".data (afterLastDashL url.data)⟩ : String) = ""
  · rw [if_pos h, h]
  · rw [if_neg h]

lemma ppGo_index_inv :
    ∀ (ls : List String) (keys : List KeyRec) (segs : List MediaSegment)
      (r : ParseResult), ppGo ls keys segs = some r →
      (∀ s ∈ segs, s.index = segIndexOf s.url) →
      ∀ s ∈ r.segments, s.index = segIndexOf s.url := by
  intro ls
  induction ls with
  | nil =>
    intro keys segs r h hs
    simp only [ppGo] at h
    cases h
    exact hs
  | cons line rest ih =>
    intro keys segs r h hs
    simp only [ppGo] at h
    by_cases h1 : jsStartsWith line "#EXT-X-KEY" = true
    · rw [if_pos h1] at h
      cases hpk : parseKey line with
      | none => simp only [hpk] at h; cases h
      | some k =>
        simp only [hpk] at h
        by_cases h2 : isExcluded k.uri = true
        · rw [if_pos h2] at h
          exact ih keys segs r h hs
        · rw [if_neg h2] at h
          exact ih (keys ++ [k]) segs r h hs
    · rw [if_neg h1] at h
      by_cases h2 : jsStartsWith line "#EXTINF:" = true
      · rw [if_pos h2] at h
        cases hnx : rest.head? with
        | none => simp only [hnx] at h; cases h
        | some nxt =>
          simp only [hnx] at h
          by_cases h3 : isExcluded (jsTrim nxt) = true
          · rw [if_pos h3] at h
            exact ih keys segs r h hs
          · rw [if_neg h3] at h
            refine ih keys (segs ++ [_]) r h ?_
            intro s2 hs2
            rcases List.mem_append.mp hs2 with hs2 | hs2
            · exact hs s2 hs2
            · rcases List.mem_singleton.mp hs2 with rfl
              rfl
      · rw [if_neg h2] at h
        exact ih keys segs r h hs

/-- C8 (amended): every segment returned by `parsePlaylist` has `index` =
the part of the WHOLE url after its last `-` — the whole url when it
contains none, rather than the empty string — with the first occurrence
of `".ts"` removed (the computation runs over the full URL, not just the
filename). -/
theorem parsePlaylist_index_from_whole_url :
    ∀ (lines : List String) (r : ParseResult), parsePlaylistLines lines = some r →
      ∀ s ∈ r.segments, s.index = indexFromWholeUrl s.url := by
  intro lines r h s hs
  rw [← segIndexOf_eq]
  exact ppGo_index_inv lines [] [] r h (by intro t ht; cases ht) s hs

/-- Counterexample to C8 as stated: a segment URL with no `-` anywhere
gets `index` = the whole URL with `".ts"` removed, not the empty string
the claim requires. -/
theorem parsePlaylist_index_not_empty_cex :
    (parsePlaylistLines
        ["#EXT-X-KEY:,URI=\"a/b/c/d/e/f\",IV=0x1f", "#EXTINF:4,",
         "http://h/p/file.ts"]).map
      (fun r => r.segments.map fun s => s.index) = some ["http://h/p/file"] ∧
    ¬ (parsePlaylistLines
        ["#EXT-X-KEY:,URI=\"a/b/c/d/e/f\",IV=0x1f", "#EXTINF:4,",
         "http://h/p/file.ts"]).map
      (fun r => r.segments.map fun s => s.index) = some [""] :=
  ⟨by decide, by decide⟩

/-- Witness for the amended C8 at a parse with a dashed and an undashed
segment URL. -/
theorem parsePlaylist_index_from_whole_url_witness :
    (MediaSegment.mk "s-1.ts" "1" (some 0)).index = indexFromWholeUrl "s-1.ts" ∧
    (MediaSegment.mk "http://h/p/file.ts" "http://h/p/file" (some 0)).index =
      indexFromWholeUrl "http://h/p/file.ts" :=
  ⟨parsePlaylist_index_from_whole_url
      ["#EXT-X-KEY:,URI=\"a/b/c/d/e/f\",IV=0x1f", "#EXTINF:4,", "s-1.ts",
       "#EXTINF:4,", "http://h/p/file.ts"]
      ⟨[⟨"s-1.ts", "1", some 0⟩, ⟨"http://h/p/file.ts", "http://h/p/file", some 0⟩],
       [⟨"", "a/b/c/d/e/f", "1f"⟩]⟩ (by decide)
      ⟨"s-1.ts", "1", some 0⟩ (by decide),
    parsePlaylist_index_from_whole_url
      ["#EXT-X-KEY:,URI=\"a/b/c/d/e/f\",IV=0x1f", "#EXTINF:4,", "s-1.ts",
       "#EXTINF:4,", "http://h/p/file.ts"]
      ⟨[⟨"s-1.ts", "1", some 0⟩, ⟨"http://h/p/file.ts", "http://h/p/file", some 0⟩],
       [⟨"", "a/b/c/d/e/f", "1f"⟩]⟩ (by decide)
      ⟨"http://h/p/file.ts", "http://h/p/file", some 0⟩ (by decide)⟩

end SegIndex

section MasterParse

/-- A well-formed master-manifest pair for C7: a `#EXT-X-STREAM-INF`
attribute line whose attributes parse, followed by a uri line that is not
itself one of the three recognised tag lines. -/
def masterPairOk (p : String × String) : Prop :=
  jsStartsWith (jsTrim p.1) "#EXT-X-STREAM-INF" = true ∧
  jsStartsWith (jsTrim p.1) "#EXTM3U" = false ∧
  jsStartsWith (jsTrim p.1) "#EXT-X-MEDIA" = false ∧
  (parseAttributes (jsTrim p.1)).isSome = true ∧
  jsStartsWith (jsTrim p.2) "#EXTM3U" = false ∧
  jsStartsWith (jsTrim p.2) "#EXT-X-MEDIA" = false ∧
  jsStartsWith (jsTrim p.2) "#EXT-X-STREAM-INF" = false

instance (p : String × String) : Decidable (masterPairOk p) := by
  unfold masterPairOk
  infer_instance

lemma jsIndexOf_append_not_mem {a : String} :
    ∀ {l1 : List String} (l2 : List String), a ∉ l1 →
      jsIndexOf (l1 ++ l2) a = l1.length + jsIndexOf l2 a := by
  intro l1
  induction l1 with
  | nil => intro l2 _; simp [jsIndexOf]
  | cons x xs ih =>
    intro l2 h
    simp only [List.mem_cons, not_or] at h
    obtain ⟨hne, hnm⟩ := h
    have hxa : ¬ x = a := fun he => hne he.symm
    simp only [List.cons_append, jsIndexOf, List.length_cons, List.append_eq]
    rw [if_neg hxa, ih l2 hnm]
    omega

lemma mem_pairs_flat {x : String} {ps : List (String × String)} :
    x ∈ (ps.flatMap fun p => [p.1, p.2]) ↔ ∃ q ∈ ps, x = q.1 ∨ x = q.2 := by
  rw [List.mem_flatMap]
  constructor
  · rintro ⟨q, hq, hx⟩
    exact ⟨q, hq, by simpa using hx⟩
  · rintro ⟨q, hq, hx⟩
    exact ⟨q, hq, by simpa using hx⟩

lemma masterGo_pairs :
    ∀ (ps psPre : List (String × String))
      (media : List (List (String × String))) (streams : List MasterStream),
      (∀ p ∈ psPre ++ ps, masterPairOk p) →
      (((psPre ++ ps).map fun p => p.1).Nodup) →
      ∃ streams2,
        masterGo ((psPre ++ ps).flatMap fun p => [p.1, p.2])
            (ps.flatMap fun p => [p.1, p.2]) media streams =
          some ⟨media, streams ++ streams2⟩ ∧
        streams2.map (fun s => s.uri) = ps.map fun p => jsTrim p.2 := by
  intro ps
  induction ps with
  | nil =>
    intro psPre media streams _ _
    exact ⟨[], by simp [masterGo], by simp⟩
  | cons p ps2 ih =>
    intro psPre media streams hok hnd
    obtain ⟨hs1, hm1, hmm1, hattr, hs2a, hs2b, hs2c⟩ := hok p (by simp)
    obtain ⟨a, ha⟩ := Option.isSome_iff_exists.mp hattr
    have hm1n : ¬ jsStartsWith (jsTrim p.1) "#EXTM3U" = true := by simp [hm1]
    have hmm1n : ¬ jsStartsWith (jsTrim p.1) "#EXT-X-MEDIA" = true := by simp [hmm1]
    have hs2an : ¬ jsStartsWith (jsTrim p.2) "#EXTM3U" = true := by simp [hs2a]
    have hs2bn : ¬ jsStartsWith (jsTrim p.2) "#EXT-X-MEDIA" = true := by simp [hs2b]
    have hs2cn : ¬ jsStartsWith (jsTrim p.2) "#EXT-X-STREAM-INF" = true := by
      simp [hs2c]
    have hnotmem : p.1 ∉ (psPre.flatMap fun q => [q.1, q.2]) := by
      rw [mem_pairs_flat]
      rintro ⟨q, hq, hx | hx⟩
      · rw [List.map_append, List.map_cons, List.nodup_append] at hnd
        obtain ⟨_, _, hdisj⟩ := hnd
        exact hdisj (List.mem_map_of_mem _ hq)
          (by rw [← hx]; exact List.mem_cons_self _ _)
      · obtain ⟨_, _, _, _, _, _, hq2c⟩ := hok q (List.mem_append_left _ hq)
        rw [← hx] at hq2c
        rw [hs1] at hq2c
        exact Bool.noConfusion hq2c
    have hidx : jsIndexOf ((psPre ++ p :: ps2).flatMap fun q => [q.1, q.2]) p.1 =
        (psPre.flatMap fun q => [q.1, q.2]).length := by
      rw [List.flatMap_append, jsIndexOf_append_not_mem _ hnotmem]
      simp [List.flatMap_cons, jsIndexOf]
    have hlook :
        ((psPre ++ p :: ps2).flatMap fun q => [q.1, q.2])[jsIndexOf
            ((psPre ++ p :: ps2).flatMap fun q => [q.1, q.2]) p.1 + 1]? =
          some p.2 := by
      rw [hidx, List.flatMap_append, List.getElem?_append_right (by omega)]
      simp [List.flatMap_cons]
    have hflat : ((psPre ++ [p]) ++ ps2) = psPre ++ p :: ps2 :=
      (List.append_cons _ _ _).symm
    have hok2 : ∀ q ∈ (psPre ++ [p]) ++ ps2, masterPairOk q := by
      rw [hflat]; exact hok
    have hnd2 : (((psPre ++ [p]) ++ ps2).map fun q => q.1).Nodup := by
      rw [hflat]; exact hnd
    obtain ⟨streams2, hgo, hmap⟩ :=
      ih (psPre ++ [p]) media (streams ++ [⟨a, jsTrim p.2⟩]) hok2 hnd2
    rw [hflat] at hgo
    refine ⟨⟨a, jsTrim p.2⟩ :: streams2, ?_, ?_⟩
    · simp only [List.flatMap_cons, List.cons_append]
      simp only [masterGo]
      rw [if_neg hm1n, if_neg hmm1n, if_pos hs1]
      simp only [ha]
      rw [hlook]
      simp only [masterGo]
      rw [if_neg hs2an, if_neg hs2bn, if_neg hs2cn]
      rw [List.append_cons streams ⟨a, jsTrim p.2⟩ streams2]
      exact hgo
    · simp [hmap]

/-- C7 (amended): the uri of each stream is the trimmed line after the
FIRST occurrence of a character-identical STREAM-INF line
(`lines.indexOf`).  Hence: (a) when the STREAM-INF lines of a master
manifest are pairwise distinct, each returned stream's uri is the line
immediately following its own STREAM-INF line, in order; (b) a MEDIA
attribute line is parsed directly, with no following-line lookup — a
manifest consisting of just one MEDIA line parses fine; (c) by contrast,
a lone STREAM-INF line throws on the missing following line.  (For two
character-identical STREAM-INF lines both uris point after the first
occurrence; see the counterexample.) -/
theorem parseMaster_uri_and_media :
    (∀ ps : List (String × String),
      (∀ p ∈ ps, masterPairOk p) → ((ps.map fun p => p.1).Nodup) →
      ∃ r, parseMasterLines (ps.flatMap fun p => [p.1, p.2]) = some r ∧
        r.media = [] ∧
        r.streams.map (fun s => s.uri) = ps.map fun p => jsTrim p.2) ∧
    (∀ (mline : String) (a : List (String × String)),
      jsStartsWith (jsTrim mline) "#EXTM3U" = false →
      jsStartsWith (jsTrim mline) "#EXT-X-MEDIA" = true →
      parseAttributes (jsTrim mline) = some a →
      parseMasterLines [mline] = some ⟨[a], []⟩) ∧
    (∀ sline : String,
      jsStartsWith (jsTrim sline) "#EXTM3U" = false →
      jsStartsWith (jsTrim sline) "#EXT-X-MEDIA" = false →
      jsStartsWith (jsTrim sline) "#EXT-X-STREAM-INF" = true →
      parseMasterLines [sline] = none) := by
  refine ⟨?_, ?_, ?_⟩
  · intro ps hok hnd
    obtain ⟨streams2, hgo, hmap⟩ :=
      masterGo_pairs ps [] [] [] (by simpa using hok) (by simpa using hnd)
    refine ⟨⟨[], streams2⟩, ?_, rfl, by simpa using hmap⟩
    unfold parseMasterLines
    simpa using hgo
  · intro mline a h1 h2 hpa
    have h1n : ¬ jsStartsWith (jsTrim mline) "#EXTM3U" = true := by simp [h1]
    unfold parseMasterLines
    simp only [masterGo]
    rw [if_neg h1n, if_pos h2]
    simp only [hpa]
    simp [masterGo]
  · intro sline h1 h2 h3
    have h1n : ¬ jsStartsWith (jsTrim sline) "#EXTM3U" = true := by simp [h1]
    have h2n : ¬ jsStartsWith (jsTrim sline) "#EXT-X-MEDIA" = true := by simp [h2]
    unfold parseMasterLines
    simp only [masterGo]
    rw [if_neg h1n, if_neg h2n, if_pos h3]
    cases hpa : parseAttributes (jsTrim sline) with
    | none => rfl
    | some a =>
      simp only [hpa]
      have hnone : ([sline] : List String)[jsIndexOf [sline] sline + 1]? = none := by
        simp [jsIndexOf]
      rw [hnone]

/-- Counterexample to C7 as stated: with two character-identical
STREAM-INF lines, `parseMaster` gives BOTH streams the line after the
first occurrence (`"a.m3u8"`), not each its own following line. -/
theorem parseMaster_duplicate_streaminf_cex :
    (parseMasterLines
        ["#EXT-X-STREAM-INF:BANDWIDTH=1", "a.m3u8",
         "#EXT-X-STREAM-INF:BANDWIDTH=1", "b.m3u8"]).map
      (fun r => r.streams.map fun s => s.uri) = some ["a.m3u8", "a.m3u8"] ∧
    ¬ (parseMasterLines
        ["#EXT-X-STREAM-INF:BANDWIDTH=1", "a.m3u8",
         "#EXT-X-STREAM-INF:BANDWIDTH=1", "b.m3u8"]).map
      (fun r => r.streams.map fun s => s.uri) = some ["a.m3u8", "b.m3u8"] :=
  ⟨by decide, by decide⟩

/-- Witness for the amended C7 at a manifest with two distinct
STREAM-INF lines. -/
theorem parseMaster_uri_and_media_witness :
    (∀ p ∈ [("#EXT-X-STREAM-INF:BANDWIDTH=1", "a.m3u8"),
            ("#EXT-X-STREAM-INF:BANDWIDTH=2", "b.m3u8")], masterPairOk p) ∧
    ∃ r, parseMasterLines
        ["#EXT-X-STREAM-INF:BANDWIDTH=1", "a.m3u8",
         "#EXT-X-STREAM-INF:BANDWIDTH=2", "b.m3u8"] = some r ∧
      r.media = [] ∧
      r.streams.map (fun s => s.uri) = ["a.m3u8", "b.m3u8"] :=
  ⟨by decide,
    parseMaster_uri_and_media.1
      [("#EXT-X-STREAM-INF:BANDWIDTH=1", "a.m3u8"),
       ("#EXT-X-STREAM-INF:BANDWIDTH=2", "b.m3u8")] (by decide) (by decide)⟩

end MasterParse

end PlutoTV
